import Mathlib

/-!
Verification of the escape-fixer script of this repository.

The script reads one file, applies the Python substitution
re.sub(pattern, replacement, content), where the pattern matches a
literal backslash, a literal open parenthesis, a group capturing
[a-zA-Z_][a-zA-Z0-9_.]*, a literal backslash and a literal close
parenthesis, and the replacement is the captured group wrapped in a
plain parenthesis pair; it then writes the result back.

The text is embedded as a list of characters.  The regex engine is
embedded faithfully: at each position of a left-to-right scan the engine
attempts the pattern (tryMatch); on success the match is replaced and the
scan resumes after it, otherwise one character is kept and the scan moves
on (fixGo / fixEscapes).  The identifier run of the pattern is matched
greedily; because the run classes exclude the backslash, the greedy run
is the only run the engine can accept, so tryMatch is exactly the
single-position semantics of the regex.
-/

/-- Character class of the regex fragment [a-zA-Z_]: the first character
of the placeholder identifier. -/
def isIdentStart (c : Char) : Bool :=
  (decide ('a' ≤ c) && decide (c ≤ 'z')) ||
  (decide ('A' ≤ c) && decide (c ≤ 'Z')) ||
  decide (c = '_')

/-- Character class of the regex fragment [a-zA-Z0-9_.]: the remaining
characters of the placeholder identifier. -/
def isIdentChar (c : Char) : Bool :=
  isIdentStart c || (decide ('0' ≤ c) && decide (c ≤ '9')) || decide (c = '.')

/-- A capture of the regex group [a-zA-Z_][a-zA-Z0-9_.]*. -/
def isIdent : List Char → Bool
  | [] => false
  | c :: cs => isIdentStart c && cs.all isIdentChar

/-- The full matched text for identifier idw: backslash, open paren, the
identifier, backslash, close paren. -/
def matP (idw : List Char) : List Char :=
  '\\' :: '(' :: (idw ++ ['\\', ')'])

/-- The replacement text for identifier idw (the template r-quote (\\1)):
the identifier wrapped in an unescaped parenthesis pair. -/
def repP (idw : List Char) : List Char :=
  '(' :: (idw ++ [')'])

/-- One attempt of the pattern at the head of the text, as the regex
engine performs at each scan position: on success, the captured
identifier and the text after the match.  The greedy identifier run is
taken with takeWhile; no shorter run can be accepted because the
character after a shorter run would be an identifier character, never
the required backslash. -/
def tryMatch : List Char → Option (List Char × List Char)
  | b :: p :: c :: rest =>
    if b = '\\' ∧ p = '(' ∧ isIdentStart c = true then
      match rest.dropWhile isIdentChar with
      | b2 :: p2 :: rest2 =>
        if b2 = '\\' ∧ p2 = ')' then
          some (c :: rest.takeWhile isIdentChar, rest2)
        else none
      | _ => none
    else none
  | _ => none


theorem identChar_backslash : isIdentChar '\\' = false := by decide

theorem takeWhile_ident_append (cs t : List Char) (h : cs.all isIdentChar = true) :
    (cs ++ '\\' :: t).takeWhile isIdentChar = cs ∧
    (cs ++ '\\' :: t).dropWhile isIdentChar = '\\' :: t := by
  induction cs with
  | nil =>
    constructor
    · simp [List.takeWhile, identChar_backslash]
    · simp [List.dropWhile, identChar_backslash]
  | cons c cs ih =>
    simp only [List.all_cons, Bool.and_eq_true] at h
    simp [List.takeWhile, List.dropWhile, h.1, ih h.2]

theorem tryMatch_shape {s idw rest2 : List Char}
    (h : tryMatch s = some (idw, rest2)) :
    isIdent idw = true ∧ s = '\\' :: '(' :: (idw ++ '\\' :: ')' :: rest2) := by
  match s with
  | [] => simp [tryMatch] at h
  | [a] => simp [tryMatch] at h
  | [a, b] => simp [tryMatch] at h
  | b :: p :: c :: rest =>
    simp only [tryMatch] at h
    split at h
    · rename_i hbp
      obtain ⟨hb, hp, hc⟩ := hbp
      split at h
      · rename_i b2 p2 rest3 hdrop
        split at h
        · rename_i hb2
          obtain ⟨hb2, hp2⟩ := hb2
          injection h with h
          injection h with h1 h2
          subst h1 h2 hb hp hb2 hp2
          constructor
          · simp only [isIdent, hc, Bool.true_and, List.all_eq_true]
            intro x hx
            exact List.mem_takeWhile_imp hx
          · have hsplit := List.takeWhile_append_dropWhile (p := isIdentChar) (l := rest)
            rw [hdrop] at hsplit
            have hjoin : (c :: rest.takeWhile isIdentChar) ++ '\\' :: ')' :: rest3
                = c :: rest := by
              rw [List.cons_append, hsplit]
            rw [hjoin]
        · exact Option.noConfusion h
      · exact Option.noConfusion h
    · exact Option.noConfusion h

theorem tryMatch_mat {idw : List Char} (hid : isIdent idw = true) (r : List Char) :
    tryMatch (matP idw ++ r) = some (idw, r) := by
  match idw, hid with
  | c :: cs, hid =>
    simp only [isIdent, Bool.and_eq_true] at hid
    have htd := takeWhile_ident_append cs (')' :: r) hid.2
    simp [matP, tryMatch, hid.1, htd.1, htd.2]

/-- The left-to-right scan of re.sub: replace each leftmost
non-overlapping match, keep every other character.  The fuel argument
makes the recursion structural; the scan consumes at least one character
per step, so fuel equal to the length of the text suffices. -/
def fixGo : Nat → List Char → List Char
  | 0, s => s
  | fuel + 1, s =>
    match s with
    | [] => []
    | c :: rest =>
      match tryMatch (c :: rest) with
      | some (idw, rest2) => '(' :: (idw ++ ')' :: fixGo fuel rest2)
      | none => c :: fixGo fuel rest

/-- re.sub(pattern, replacement, content): the transformation the script
applies to the file content. -/
def fixEscapes (s : List Char) : List Char := fixGo s.length s


theorem fixGo_nil (fuel : Nat) : fixGo fuel [] = [] := by
  cases fuel <;> simp [fixGo]

theorem matP_append (idw r : List Char) :
    matP idw ++ r = '\\' :: '(' :: (idw ++ '\\' :: ')' :: r) := by
  simp [matP]

theorem tryMatch_some_length {s idw r : List Char}
    (h : tryMatch s = some (idw, r)) :
    s.length = idw.length + r.length + 4 := by
  obtain ⟨-, hs⟩ := tryMatch_shape h
  rw [hs]
  simp
  omega

theorem fixGo_congr : ∀ (m n : Nat) (s : List Char),
    s.length ≤ m → s.length ≤ n → fixGo m s = fixGo n s := by
  intro m
  induction m with
  | zero =>
    intro n s hm _
    have : s = [] := List.eq_nil_of_length_eq_zero (Nat.le_zero.mp hm)
    subst this
    rw [fixGo_nil, fixGo_nil]
  | succ m ih =>
    intro n s hm hn
    cases s with
    | nil => rw [fixGo_nil, fixGo_nil]
    | cons c rest =>
      cases n with
      | zero => simp at hn
      | succ n =>
        simp only [fixGo]
        cases htm : tryMatch (c :: rest) with
        | some p =>
          obtain ⟨idw, rest2⟩ := p
          have hlen := tryMatch_some_length htm
          simp only [List.length_cons] at hlen hm hn
          have h1 : rest2.length ≤ m := by omega
          have h2 : rest2.length ≤ n := by omega
          dsimp only
          rw [ih n rest2 h1 h2]
        | none =>
          simp only [List.length_cons] at hm hn
          dsimp only
          rw [ih n rest (by omega) (by omega)]

theorem fixEscapes_nil : fixEscapes [] = [] := rfl

theorem fixEscapes_spec_match {s idw r : List Char} (h : tryMatch s = some (idw, r)) :
    fixEscapes s = '(' :: (idw ++ ')' :: fixEscapes r) := by
  obtain ⟨-, hs⟩ := tryMatch_shape h
  have hlen := tryMatch_some_length h
  cases s with
  | nil => simp at hlen
  | cons c rest =>
    show fixGo (c :: rest).length (c :: rest) = _
    simp only [List.length_cons, fixGo, h]
    have : fixGo rest.length r = fixEscapes r := by
      apply fixGo_congr
      · simp only [List.length_cons] at hlen; omega
      · exact Nat.le_refl _
    rw [this]

theorem fixEscapes_nomatch {c : Char} {rest : List Char}
    (h : tryMatch (c :: rest) = none) :
    fixEscapes (c :: rest) = c :: fixEscapes rest := by
  show fixGo (c :: rest).length (c :: rest) = _
  simp only [List.length_cons, fixGo, h]
  rfl

/-- The text begins with a match of the pattern. -/
def HasMatch (s : List Char) : Prop :=
  ∃ idw r, isIdent idw = true ∧ s = matP idw ++ r

theorem hasMatch_iff (s : List Char) : HasMatch s ↔ (tryMatch s).isSome = true := by
  constructor
  · rintro ⟨idw, r, hid, rfl⟩
    rw [tryMatch_mat hid]
    rfl
  · intro h
    cases htm : tryMatch s with
    | none => rw [htm] at h; simp at h
    | some p =>
      obtain ⟨idw, r⟩ := p
      obtain ⟨hid, hs⟩ := tryMatch_shape htm
      exact ⟨idw, r, hid, by rw [hs, matP_append]⟩

theorem not_hasMatch_iff (s : List Char) : ¬ HasMatch s ↔ tryMatch s = none := by
  rw [hasMatch_iff]
  cases tryMatch s <;> simp

theorem hasMatch_head {x : Char} {t : List Char} (h : HasMatch (x :: t)) : x = '\\' := by
  obtain ⟨idw, r, -, hs⟩ := h
  rw [matP_append] at hs
  exact (List.cons.injEq .. ▸ hs).1

/-- No match of the pattern starts at any position of the text: the text
contains zero occurrences of the pattern. -/
def CleanText (s : List Char) : Prop := ∀ i : Nat, ¬ HasMatch (s.drop i)

/-- Executable form of CleanText. -/
def cleanTextB (s : List Char) : Bool :=
  (List.range s.length).all fun i => (tryMatch (s.drop i)).isNone

theorem cleanTextB_iff (s : List Char) : cleanTextB s = true ↔ CleanText s := by
  simp only [cleanTextB, List.all_eq_true, List.mem_range, CleanText,
    Option.isNone_iff_eq_none, ← not_hasMatch_iff]
  constructor
  · intro h i
    by_cases hi : i < s.length
    · exact h i hi
    · rw [List.drop_eq_nil_of_le (by omega)]
      rw [not_hasMatch_iff]
      rfl
  · intro h i _
    exact h i

/-- No match of the pattern starts inside g when the scan continues into
k: g is a preserved gap of the substitution. -/
def GapClean (g k : List Char) : Prop :=
  ∀ i : Nat, i < g.length → ¬ HasMatch (g.drop i ++ k)

/-- Executable form of GapClean. -/
def gapCleanB (g k : List Char) : Bool :=
  (List.range g.length).all fun i => (tryMatch (g.drop i ++ k)).isNone

theorem gapCleanB_iff (g k : List Char) : gapCleanB g k = true ↔ GapClean g k := by
  simp only [gapCleanB, List.all_eq_true, List.mem_range, GapClean,
    Option.isNone_iff_eq_none, ← not_hasMatch_iff]

theorem fixEscapes_append_gap (g k : List Char) (h : GapClean g k) :
    fixEscapes (g ++ k) = g ++ fixEscapes k := by
  induction g with
  | nil => simp
  | cons c g ih =>
    have h0 : tryMatch (c :: (g ++ k)) = none := by
      rw [← not_hasMatch_iff]
      have := h 0 (by simp)
      simpa using this
    have hgap : GapClean g k := by
      intro i hi
      have := h (i + 1) (by simpa using hi)
      simpa using this
    rw [List.cons_append, fixEscapes_nomatch h0, ih hgap]
    rfl

theorem fixEscapes_mat {idw : List Char} (hid : isIdent idw = true) (k : List Char) :
    fixEscapes (matP idw ++ k) = repP idw ++ fixEscapes k := by
  rw [fixEscapes_spec_match (tryMatch_mat hid k)]
  simp [repP]

theorem fixEscapes_of_clean {t : List Char} (h : CleanText t) : fixEscapes t = t := by
  induction t with
  | nil => rfl
  | cons c t ih =>
    have h0 : tryMatch (c :: t) = none := by
      rw [← not_hasMatch_iff]
      have := h 0
      simpa using this
    rw [fixEscapes_nomatch h0, ih]
    intro i
    have := h (i + 1)
    simpa using this

/-- The substitution described by the spec sentences: the output is the
input with every non-overlapping, leftmost-first match of the pattern
replaced by the identifier wrapped in an unescaped parenthesis pair, and
every character outside the matched regions preserved exactly.  The keep
rule demands that no match starts at the kept character, which makes the
replacement leftmost-first. -/
inductive SpecSubst : List Char → List Char → Prop
  | nil : SpecSubst [] []
  | rep {idw rest out : List Char} (hid : isIdent idw = true)
      (h : SpecSubst rest out) : SpecSubst (matP idw ++ rest) (repP idw ++ out)
  | keep {c : Char} {s out : List Char} (hnm : ¬ HasMatch (c :: s))
      (h : SpecSubst s out) : SpecSubst (c :: s) (c :: out)

theorem specSubst_unique {s t : List Char} (h : SpecSubst s t) : t = fixEscapes s := by
  induction h with
  | nil => rfl
  | rep hid hsub ih => rw [fixEscapes_mat hid, ih]
  | keep hnm hsub ih =>
    rw [fixEscapes_nomatch (not_hasMatch_iff _ |>.mp hnm), ih]

theorem specSubst_fix_aux : ∀ (n : Nat) (s : List Char), s.length ≤ n →
    SpecSubst s (fixEscapes s) := by
  intro n
  induction n with
  | zero =>
    intro s hs
    have : s = [] := List.eq_nil_of_length_eq_zero (Nat.le_zero.mp hs)
    subst this
    exact SpecSubst.nil
  | succ n ih =>
    intro s hs
    cases s with
    | nil => exact SpecSubst.nil
    | cons c rest =>
      cases htm : tryMatch (c :: rest) with
      | some p =>
        obtain ⟨idw, rest2⟩ := p
        obtain ⟨hid, hshape⟩ := tryMatch_shape htm
        have hlen := tryMatch_some_length htm
        simp only [List.length_cons] at hlen hs
        rw [fixEscapes_spec_match htm]
        have hdec : (c :: rest) = matP idw ++ rest2 := by
          rw [matP_append]; exact hshape
        rw [hdec]
        have : ('(' :: (idw ++ ')' :: fixEscapes rest2)) = repP idw ++ fixEscapes rest2 := by
          simp [repP]
        rw [this]
        exact SpecSubst.rep hid (ih rest2 (by omega))
      | none =>
        simp only [List.length_cons] at hs
        rw [fixEscapes_nomatch htm]
        exact SpecSubst.keep (not_hasMatch_iff _ |>.mpr htm) (ih rest (by omega))

theorem specSubst_fixEscapes (s : List Char) : SpecSubst s (fixEscapes s) :=
  specSubst_fix_aux s.length s (Nat.le_refl _)

theorem ident_run_unique : ∀ (a : List Char) (b : List Char) (x y : Char)
    (u v : List Char), a.all isIdentChar = true → b.all isIdentChar = true →
    isIdentChar x = false → isIdentChar y = false →
    a ++ x :: u = b ++ y :: v → a = b ∧ x = y ∧ u = v := by
  intro a
  induction a with
  | nil =>
    intro b x y u v _ hb hx hy heq
    cases b with
    | nil => simpa using heq
    | cons b0 bs =>
      simp only [List.nil_append, List.cons_append, List.cons.injEq] at heq
      simp only [List.all_cons, Bool.and_eq_true] at hb
      rw [heq.1] at hx
      rw [hx] at hb
      simp at hb
  | cons a0 as ih =>
    intro b x y u v ha hb hx hy heq
    cases b with
    | nil =>
      simp only [List.cons_append, List.nil_append, List.cons.injEq] at heq
      simp only [List.all_cons, Bool.and_eq_true] at ha
      rw [← heq.1] at hy
      rw [hy] at ha
      simp at ha
    | cons b0 bs =>
      simp only [List.cons_append, List.cons.injEq] at heq
      simp only [List.all_cons, Bool.and_eq_true] at ha hb
      obtain ⟨hab, heq2⟩ := heq
      obtain ⟨h1, h2, h3⟩ := ih bs x y u v ha.2 hb.2 hx hy heq2
      exact ⟨by rw [hab, h1], h2, h3⟩

theorem isIdent_all {idw : List Char} (h : isIdent idw = true) :
    idw.all isIdentChar = true := by
  cases idw with
  | nil => simp [isIdent] at h
  | cons c cs =>
    simp only [isIdent, Bool.and_eq_true] at h
    simp only [List.all_cons, Bool.and_eq_true]
    exact ⟨by simp [isIdentChar, h.1], h.2⟩

theorem fix_ident_run : ∀ (n : Nat) (u w r : List Char), u.length ≤ n →
    w.all isIdentChar = true → fixEscapes u = w ++ '\\' :: ')' :: r →
    ∃ r2, u = w ++ '\\' :: ')' :: r2 := by
  intro n
  induction n with
  | zero =>
    intro u w r hu _ hfix
    have : u = [] := List.eq_nil_of_length_eq_zero (Nat.le_zero.mp hu)
    subst this
    rw [fixEscapes_nil] at hfix
    exact absurd hfix.symm (by simp)
  | succ n ih =>
    intro u w r hu hw hfix
    cases u with
    | nil =>
      rw [fixEscapes_nil] at hfix
      exact absurd hfix.symm (by simp)
    | cons c rest =>
      simp only [List.length_cons] at hu
      cases htm : tryMatch (c :: rest) with
      | some p =>
        obtain ⟨idw, rest2⟩ := p
        rw [fixEscapes_spec_match htm] at hfix
        cases w with
        | nil => simp at hfix
        | cons w0 ws =>
          simp only [List.cons_append, List.cons.injEq] at hfix
          simp only [List.all_cons, Bool.and_eq_true] at hw
          rw [← hfix.1] at hw
          have : isIdentChar '(' = false := by decide
          rw [this] at hw
          simp at hw
      | none =>
        rw [fixEscapes_nomatch htm] at hfix
        cases w with
        | nil =>
          simp only [List.nil_append, List.cons.injEq] at hfix
          obtain ⟨hc, hrest⟩ := hfix
          cases rest with
          | nil =>
            rw [fixEscapes_nil] at hrest
            exact absurd hrest (by simp)
          | cons d rest2 =>
            cases htm2 : tryMatch (d :: rest2) with
            | some p =>
              rw [fixEscapes_spec_match htm2] at hrest
              simp only [List.cons.injEq] at hrest
              exact absurd hrest.1 (by decide)
            | none =>
              rw [fixEscapes_nomatch htm2] at hrest
              simp only [List.cons.injEq] at hrest
              refine ⟨rest2, ?_⟩
              simp [hc, hrest.1]
        | cons w0 ws =>
          simp only [List.cons_append, List.cons.injEq] at hfix
          simp only [List.all_cons, Bool.and_eq_true] at hw
          obtain ⟨r2, hr2⟩ := ih rest ws r (by omega) hw.2 hfix.2
          exact ⟨r2, by simp [← hfix.1, hr2]⟩

theorem cleanText_nil : CleanText [] := by
  intro i
  rw [not_hasMatch_iff]
  simp
  rfl

theorem cleanText_cons {x : Char} {t : List Char} (hx : x ≠ '\\')
    (ht : CleanText t) : CleanText (x :: t) := by
  intro i
  cases i with
  | zero =>
    intro hm
    exact hx (hasMatch_head (by simpa using hm))
  | succ i =>
    simpa using ht i

theorem cleanText_append {a t : List Char} (ha : ∀ x ∈ a, x ≠ '\\')
    (ht : CleanText t) : CleanText (a ++ t) := by
  induction a with
  | nil => simpa using ht
  | cons x a ih =>
    rw [List.cons_append]
    exact cleanText_cons (ha x (by simp)) (ih fun y hy => ha y (by simp [hy]))

theorem identChar_ne_backslash {x : Char} (h : isIdentChar x = true) : x ≠ '\\' := by
  intro heq
  rw [heq] at h
  exact absurd h (by decide)

theorem fixEscapes_clean_aux : ∀ (n : Nat) (s : List Char), s.length ≤ n →
    CleanText (fixEscapes s) := by
  intro n
  induction n with
  | zero =>
    intro s hs
    have : s = [] := List.eq_nil_of_length_eq_zero (Nat.le_zero.mp hs)
    subst this
    rw [fixEscapes_nil]
    exact cleanText_nil
  | succ n ih =>
    intro s hs
    cases s with
    | nil => rw [fixEscapes_nil]; exact cleanText_nil
    | cons c rest =>
      simp only [List.length_cons] at hs
      cases htm : tryMatch (c :: rest) with
      | some p =>
        obtain ⟨idw, rest2⟩ := p
        have hlen := tryMatch_some_length htm
        simp only [List.length_cons] at hlen
        rw [fixEscapes_spec_match htm]
        have hshape : '(' :: (idw ++ ')' :: fixEscapes rest2)
            = ('(' :: idw ++ [')']) ++ fixEscapes rest2 := by
          simp
        rw [hshape]
        obtain ⟨hid, -⟩ := tryMatch_shape htm
        apply cleanText_append
        · intro x hx
          simp only [List.cons_append, List.mem_cons, List.mem_append,
            List.mem_singleton, List.not_mem_nil, or_false] at hx
          rcases hx with rfl | hx | rfl
          · decide
          · exact identChar_ne_backslash
              (List.all_eq_true.mp (isIdent_all hid) x hx)
          · decide
        · exact ih rest2 (by omega)
      | none =>
        rw [fixEscapes_nomatch htm]
        intro i
        cases i with
        | zero =>
          intro hm
          simp only [List.drop_zero] at hm
          obtain ⟨idw, r, hid, hdec⟩ := hm
          rw [matP_append] at hdec
          simp only [List.cons.injEq] at hdec
          obtain ⟨hc, hfix⟩ := hdec
          -- fixEscapes rest = '(' :: (idw ++ '\\' :: ')' :: r)
          cases rest with
          | nil =>
            rw [fixEscapes_nil] at hfix
            exact absurd hfix (by simp)
          | cons d rest2 =>
            cases htm2 : tryMatch (d :: rest2) with
            | some p =>
              obtain ⟨idw2, r2⟩ := p
              rw [fixEscapes_spec_match htm2] at hfix
              simp only [List.cons.injEq] at hfix
              -- idw2 ++ ')' :: fixEscapes r2 = idw ++ '\\' :: ')' :: r
              obtain ⟨-, h2, -⟩ := ident_run_unique idw2 idw ')' '\\'
                (fixEscapes r2) (')' :: r)
                (isIdent_all (tryMatch_shape htm2).1) (isIdent_all hid)
                (by decide) (by decide) hfix.2
              exact absurd h2 (by decide)
            | none =>
              rw [fixEscapes_nomatch htm2] at hfix
              simp only [List.cons.injEq] at hfix
              obtain ⟨hd, hfix2⟩ := hfix
              -- fixEscapes rest2 = idw ++ '\\' :: ')' :: r
              obtain ⟨r2, hr2⟩ := fix_ident_run rest2.length rest2 idw r
                (Nat.le_refl _) (isIdent_all hid) hfix2
              -- so the original had a match at the head: contradiction with htm
              have hhm : HasMatch (c :: d :: rest2) :=
                ⟨idw, r2, hid, by rw [matP_append, hc, hd, hr2]⟩
              exact (not_hasMatch_iff _ |>.mpr htm) hhm
        | succ i =>
          have := ih rest (by omega) i
          simpa using this

theorem fixEscapes_idem (s : List Char) :
    fixEscapes (fixEscapes s) = fixEscapes s :=
  fixEscapes_of_clean (fixEscapes_clean_aux s.length s (Nat.le_refl _))

/-- The number of matches replaced by the scan, with the same fuel
structure as fixGo. -/
def countGo : Nat → List Char → Nat
  | 0, _ => 0
  | fuel + 1, s =>
    match s with
    | [] => 0
    | c :: rest =>
      match tryMatch (c :: rest) with
      | some (_, rest2) => countGo fuel rest2 + 1
      | none => countGo fuel rest

/-- The number of non-overlapping matches the substitution replaces. -/
def countMatches (s : List Char) : Nat := countGo s.length s

theorem countGo_nil (fuel : Nat) : countGo fuel [] = 0 := by
  cases fuel <;> simp [countGo]

theorem countGo_congr : ∀ (m n : Nat) (s : List Char),
    s.length ≤ m → s.length ≤ n → countGo m s = countGo n s := by
  intro m
  induction m with
  | zero =>
    intro n s hm _
    have : s = [] := List.eq_nil_of_length_eq_zero (Nat.le_zero.mp hm)
    subst this
    rw [countGo_nil, countGo_nil]
  | succ m ih =>
    intro n s hm hn
    cases s with
    | nil => rw [countGo_nil, countGo_nil]
    | cons c rest =>
      cases n with
      | zero => simp at hn
      | succ n =>
        simp only [countGo]
        cases htm : tryMatch (c :: rest) with
        | some p =>
          obtain ⟨idw, rest2⟩ := p
          have hlen := tryMatch_some_length htm
          simp only [List.length_cons] at hlen hm hn
          dsimp only
          rw [ih n rest2 (by omega) (by omega)]
        | none =>
          simp only [List.length_cons] at hm hn
          dsimp only
          rw [ih n rest (by omega) (by omega)]

theorem countMatches_nil : countMatches [] = 0 := rfl

theorem countMatches_match {s idw r : List Char} (h : tryMatch s = some (idw, r)) :
    countMatches s = countMatches r + 1 := by
  have hlen := tryMatch_some_length h
  cases s with
  | nil => simp at hlen
  | cons c rest =>
    show countGo (c :: rest).length (c :: rest) = _
    simp only [List.length_cons, countGo, h]
    have : countGo rest.length r = countMatches r := by
      apply countGo_congr
      · simp only [List.length_cons] at hlen; omega
      · exact Nat.le_refl _
    rw [this]

theorem countMatches_nomatch {c : Char} {rest : List Char}
    (h : tryMatch (c :: rest) = none) :
    countMatches (c :: rest) = countMatches rest := by
  show countGo (c :: rest).length (c :: rest) = _
  simp only [List.length_cons, countGo, h]
  rfl

theorem length_fixEscapes_aux : ∀ (n : Nat) (s : List Char), s.length ≤ n →
    (fixEscapes s).length + 2 * countMatches s = s.length := by
  intro n
  induction n with
  | zero =>
    intro s hs
    have : s = [] := List.eq_nil_of_length_eq_zero (Nat.le_zero.mp hs)
    subst this
    rfl
  | succ n ih =>
    intro s hs
    cases s with
    | nil => rfl
    | cons c rest =>
      simp only [List.length_cons] at hs
      cases htm : tryMatch (c :: rest) with
      | some p =>
        obtain ⟨idw, rest2⟩ := p
        have hlen := tryMatch_some_length htm
        simp only [List.length_cons] at hlen
        rw [fixEscapes_spec_match htm, countMatches_match htm]
        have := ih rest2 (by omega)
        simp only [List.length_cons, List.length_append]
        omega
      | none =>
        rw [fixEscapes_nomatch htm, countMatches_nomatch htm]
        have := ih rest (by omega)
        simp only [List.length_cons]
        omega

theorem length_fixEscapes (s : List Char) :
    (fixEscapes s).length + 2 * countMatches s = s.length :=
  length_fixEscapes_aux s.length s (Nat.le_refl _)

/-- Modelled from the spec words: one character drawn from the set of
letters and the underscore. -/
def specIdentStart (c : Char) : Bool :=
  c.isAlpha || decide (c = '_')

/-- Modelled from the spec words: one character drawn from the set of
letters, digits, the underscore and the period. -/
def specIdentChar (c : Char) : Bool :=
  c.isAlpha || c.isDigit || decide (c = '_') || decide (c = '.')

/-- Modelled from the spec words: one or more characters, the first a
letter or underscore, the rest letters, digits, underscore or period. -/
def isIdentSpec : List Char → Bool
  | [] => false
  | c :: cs => specIdentStart c && cs.all specIdentChar

theorem identStart_eq_spec (c : Char) : isIdentStart c = specIdentStart c := by
  simp only [isIdentStart, specIdentStart, Char.isAlpha, Char.isUpper,
    Char.isLower, Char.le_def]
  rw [Bool.eq_iff_iff]
  simp only [Bool.or_eq_true, Bool.and_eq_true, decide_eq_true_eq, ge_iff_le]
  tauto

theorem identChar_eq_spec (c : Char) : isIdentChar c = specIdentChar c := by
  simp only [isIdentChar, specIdentChar, isIdentStart, Char.isAlpha,
    Char.isUpper, Char.isLower, Char.isDigit, Char.le_def]
  rw [Bool.eq_iff_iff]
  simp only [Bool.or_eq_true, Bool.and_eq_true, decide_eq_true_eq, ge_iff_le]
  tauto

theorem isIdent_eq_spec (idw : List Char) : isIdent idw = isIdentSpec idw := by
  cases idw with
  | nil => rfl
  | cons c cs =>
    simp only [isIdent, isIdentSpec, identStart_eq_spec]
    congr 1
    induction cs with
    | nil => rfl
    | cons d ds ih => simp only [List.all_cons, identChar_eq_spec, ih]

/-- The substrings the code regex matches: exactly the matched text of a
valid identifier of the code character classes. -/
def CodeMatch (l : List Char) : Prop := ∃ idw, isIdent idw = true ∧ l = matP idw

/-- The substrings described by the spec pattern sentence, built from the
spec-worded character classes. -/
def SpecMatch (l : List Char) : Prop := ∃ idw, isIdentSpec idw = true ∧ l = matP idw

/-- The observable outcome of one run of the script on given file
content: the new file content and the completion notice it prints. -/
def runOutcome (content : List Char) : List Char × String :=
  (fixEscapes content, "Fixed escaping issues")

/-- Claim C1: for every input string, the output of the substitution
equals the input with every non-overlapping, leftmost-first match of the
pattern replaced by the matched identifier wrapped in an unescaped
parenthesis pair, and every character outside the matched regions
preserved exactly: the relation SpecSubst written from the spec sentences
relates s to t exactly when t is the output of the code substitution. -/
theorem claim1_substitution_characterized (s t : List Char) :
    SpecSubst s t ↔ t = fixEscapes s :=
  ⟨specSubst_unique, fun h => h ▸ specSubst_fixEscapes s⟩

/-- Witness for claim C1 at a concrete input. -/
theorem claim1_witness : ("(x)".data : List Char) = fixEscapes "\\(x\\)".data := by
  apply (claim1_substitution_characterized "\\(x\\)".data "(x)".data).mp
  have h1 : ("\\(x\\)".data : List Char) = matP ['x'] ++ [] := by decide
  have h2 : ("(x)".data : List Char) = repP ['x'] ++ [] := by decide
  rw [h1, h2]
  exact SpecSubst.rep (by decide) SpecSubst.nil

/-- Claim C2: the set of substrings matched by the substitution equals
the set described by the spec pattern sentence: a backslash, an open
parenthesis, one or more characters from letters and underscore followed
by zero or more characters from letters, digits, underscore and period, a
backslash, a close parenthesis. -/
theorem claim2_pattern_language_eq (l : List Char) : CodeMatch l ↔ SpecMatch l := by
  simp only [CodeMatch, SpecMatch, isIdent_eq_spec]

/-- Witness for claim C2 at a concrete matched substring. -/
theorem claim2_witness : SpecMatch "\\(q\\)".data :=
  (claim2_pattern_language_eq "\\(q\\)".data).mp ⟨['q'], by decide, by decide⟩

/-- A text assembled from an alternation of segments and a final tail:
each segment is a gap followed by the rendering f of its identifier.
With f the matched text this is an input containing one occurrence per
segment; with f the replacement text it is the corresponding output. -/
def joinWith (f : List Char → List Char) :
    List (List Char × List Char) → List Char → List Char
  | [], tail => tail
  | (g, idw) :: rest, tail => g ++ (f idw ++ joinWith f rest tail)

/-- The decomposition is the one the scan traverses: every identifier is
a valid capture, no match starts inside any gap under its true
continuation, and no match starts anywhere in the final tail, so the
occurrences of the pattern are exactly the segments. -/
def SegsOk : List (List Char × List Char) → List Char → Prop
  | [], tail => CleanText tail
  | (g, idw) :: rest, tail =>
      isIdent idw = true ∧ GapClean g (matP idw ++ joinWith matP rest tail) ∧
        SegsOk rest tail

/-- Executable form of SegsOk. -/
def segsOkB : List (List Char × List Char) → List Char → Bool
  | [], tail => cleanTextB tail
  | (g, idw) :: rest, tail =>
      isIdent idw && gapCleanB g (matP idw ++ joinWith matP rest tail) &&
        segsOkB rest tail

theorem segsOkB_iff : ∀ (parts : List (List Char × List Char)) (tail : List Char),
    segsOkB parts tail = true ↔ SegsOk parts tail := by
  intro parts
  induction parts with
  | nil =>
    intro tail
    simp only [segsOkB, SegsOk, cleanTextB_iff]
  | cons p rest ih =>
    intro tail
    obtain ⟨g, idw⟩ := p
    simp only [segsOkB, SegsOk, Bool.and_eq_true, gapCleanB_iff, ih, and_assoc]

theorem fixEscapes_joinWith : ∀ (parts : List (List Char × List Char))
    (tail : List Char), SegsOk parts tail →
    fixEscapes (joinWith matP parts tail) = joinWith repP parts tail := by
  intro parts
  induction parts with
  | nil =>
    intro tail h
    exact fixEscapes_of_clean h
  | cons p rest ih =>
    intro tail h
    obtain ⟨g, idw⟩ := p
    obtain ⟨hid, hg, hrest⟩ := h
    simp only [joinWith]
    rw [fixEscapes_append_gap _ _ hg, fixEscapes_mat hid, ih tail hrest]

/-- Claim C3: every input containing multiple (two or more)
non-overlapping occurrences of the pattern has each occurrence
independently replaced and all other characters unchanged: for every
decomposition into two or more gap/occurrence segments followed by an
occurrence-free tail, the output is the same decomposition with each
matched text replaced by its replacement text and every gap and the
tail kept verbatim. -/
theorem claim3_multiple_occurrences (parts : List (List Char × List Char))
    (tail : List Char) (_hn : 2 ≤ parts.length) (hok : SegsOk parts tail) :
    fixEscapes (joinWith matP parts tail) = joinWith repP parts tail :=
  fixEscapes_joinWith parts tail hok

/-- Witness for claim C3 at the two concrete inputs of the spec and at an
input with three occurrences. -/
theorem claim3_witness :
    fixEscapes "\\(a\\) and \\(b.c\\)".data = "(a) and (b.c)".data ∧
    fixEscapes "Hello \\(name\\), you have \\(count\\) items.".data
      = "Hello (name), you have (count) items.".data ∧
    fixEscapes "\\(a\\)+\\(b\\)+\\(c\\)".data = "(a)+(b)+(c)".data := by
  refine ⟨?_, ?_, ?_⟩
  · have h := claim3_multiple_occurrences
      [([], ['a']), (" and ".data, "b.c".data)] []
      (by decide) ((segsOkB_iff _ _).mp (by decide))
    have e1 : joinWith matP [([], ['a']), (" and ".data, "b.c".data)] []
        = "\\(a\\) and \\(b.c\\)".data := by decide
    have e2 : joinWith repP [([], ['a']), (" and ".data, "b.c".data)] []
        = "(a) and (b.c)".data := by decide
    rw [e1, e2] at h
    exact h
  · have h := claim3_multiple_occurrences
      [("Hello ".data, "name".data), (", you have ".data, "count".data)]
      " items.".data
      (by decide) ((segsOkB_iff _ _).mp (by decide))
    have e1 : joinWith matP
        [("Hello ".data, "name".data), (", you have ".data, "count".data)]
        " items.".data
        = "Hello \\(name\\), you have \\(count\\) items.".data := by decide
    have e2 : joinWith repP
        [("Hello ".data, "name".data), (", you have ".data, "count".data)]
        " items.".data
        = "Hello (name), you have (count) items.".data := by decide
    rw [e1, e2] at h
    exact h
  · have h := claim3_multiple_occurrences
      [([], ['a']), ("+".data, ['b']), ("+".data, ['c'])] []
      (by decide) ((segsOkB_iff _ _).mp (by decide))
    have e1 : joinWith matP [([], ['a']), ("+".data, ['b']), ("+".data, ['c'])] []
        = "\\(a\\)+\\(b\\)+\\(c\\)".data := by decide
    have e2 : joinWith repP [([], ['a']), ("+".data, ['b']), ("+".data, ['c'])] []
        = "(a)+(b)+(c)".data := by decide
    rw [e1, e2] at h
    exact h

/-- Claim C4: an input with exactly one occurrence of the pattern has the
occurrence replaced with the identifier preserved verbatim and the
surrounding text unchanged. -/
theorem claim4_single_occurrence (g0 g1 idw : List Char)
    (hid : isIdent idw = true) (hg0 : GapClean g0 (matP idw ++ g1))
    (hg1 : CleanText g1) :
    fixEscapes (g0 ++ (matP idw ++ g1)) = g0 ++ (repP idw ++ g1) := by
  rw [fixEscapes_append_gap _ _ hg0, fixEscapes_mat hid, fixEscapes_of_clean hg1]

/-- Witness for claim C4 at the two concrete inputs of the spec. -/
theorem claim4_witness :
    fixEscapes "\\(user.name\\)".data = "(user.name)".data ∧
    fixEscapes "\\(item.price2\\)".data = "(item.price2)".data := by
  constructor
  · have h := claim4_single_occurrence [] [] "user.name".data (by decide)
      ((gapCleanB_iff _ _).mp (by decide)) ((cleanTextB_iff _).mp (by decide))
    have e1 : [] ++ (matP "user.name".data ++ []) = "\\(user.name\\)".data := by
      decide
    have e2 : [] ++ (repP "user.name".data ++ []) = "(user.name)".data := by
      decide
    rw [e1, e2] at h
    exact h
  · have h := claim4_single_occurrence [] [] "item.price2".data (by decide)
      ((gapCleanB_iff _ _).mp (by decide)) ((cleanTextB_iff _).mp (by decide))
    have e1 : [] ++ (matP "item.price2".data ++ []) = "\\(item.price2\\)".data := by
      decide
    have e2 : [] ++ (repP "item.price2".data ++ []) = "(item.price2)".data := by
      decide
    rw [e1, e2] at h
    exact h

/-- Claim C5: an input with zero occurrences of the pattern is returned
exactly. -/
theorem claim5_no_occurrence (s : List Char) (h : CleanText s) :
    fixEscapes s = s :=
  fixEscapes_of_clean h

/-- Witness for claim C5 at a concrete input with no occurrence. -/
theorem claim5_witness :
    fixEscapes "no match: \\(2x\\) \\(\\) a\\b (q) \\n".data
      = "no match: \\(2x\\) \\(\\) a\\b (q) \\n".data :=
  claim5_no_occurrence _ ((cleanTextB_iff _).mp (by decide))

/-- Claim C6: a region in which no match starts appears unchanged in the
output, and the rest of the text is transformed independently of it;
unbalanced escapes, identifiers starting with a digit, empty identifiers
and unrelated backslash pairs are such regions. -/
theorem claim6_nonmatching_preserved (g k : List Char) (h : GapClean g k) :
    fixEscapes (g ++ k) = g ++ fixEscapes k :=
  fixEscapes_append_gap g k h

/-- Witness for claim C6 at a concrete input mixing non-matching
sequences with one match. -/
theorem claim6_witness :
    fixEscapes "\\(2x\\) \\(\\) \\(ok\\)".data = "\\(2x\\) \\(\\) (ok)".data := by
  have h := claim6_nonmatching_preserved "\\(2x\\) \\(\\) ".data "\\(ok\\)".data
    ((gapCleanB_iff _ _).mp (by decide))
  have e1 : "\\(2x\\) \\(\\) ".data ++ "\\(ok\\)".data
      = "\\(2x\\) \\(\\) \\(ok\\)".data := by decide
  rw [e1] at h
  exact h.trans (by decide)

/-- Claim C7: on input already in fixed form, containing no occurrence of
the pattern, applying the substitution twice equals applying it once. -/
theorem claim7_idempotent_on_fixed (s : List Char) (h : CleanText s) :
    fixEscapes (fixEscapes s) = fixEscapes s := by
  rw [fixEscapes_of_clean h]
  exact fixEscapes_of_clean h

/-- Witness for claim C7 at a concrete already-fixed input. -/
theorem claim7_witness :
    fixEscapes (fixEscapes "Hello (name), you have (count) items.".data)
      = fixEscapes "Hello (name), you have (count) items.".data :=
  claim7_idempotent_on_fixed _ ((cleanTextB_iff _).mp (by decide))

/-- Claim C8: for every input string, applying the substitution twice
equals applying it once: a single pass never creates a new occurrence of
the pattern. -/
theorem claim8_idempotent (s : List Char) :
    fixEscapes (fixEscapes s) = fixEscapes s :=
  fixEscapes_idem s

/-- Claim C9: the length of the output equals the length of the input
minus two times the number of non-overlapping matches replaced, so the
output is never longer than the input. -/
theorem claim9_length_decrease (s : List Char) :
    (fixEscapes s).length = s.length - 2 * countMatches s ∧
    (fixEscapes s).length ≤ s.length := by
  have h := length_fixEscapes s
  omega

/-- Claim C10: the transformation is deterministic: two runs on equal
input content produce equal file content and equal console output. -/
theorem claim10_deterministic (c1 c2 : List Char) (h : c1 = c2) :
    runOutcome c1 = runOutcome c2 := by
  rw [h]

/-- Witness for claim C10 at a concrete input. -/
theorem claim10_witness :
    runOutcome "\\(title\\)".data = runOutcome "\\(title\\)".data :=
  claim10_deterministic "\\(title\\)".data "\\(title\\)".data rfl

